import Mathlib

/-!
Verification of the csv-helper package (`csv.go`).

The Go package binds CSV rows (`[][]string`, first row the header) to
instances of a caller-declared struct type `T` whose string fields carry a
`csv_column_name` tag.  We embed the package shallowly:

* A struct type `T` is described by its ordered field list, each field a
  `(name, tag)` pair (`Field`); Go guarantees field names are distinct,
  non-empty identifiers.
* An instance of `T` is the list of its field values in declaration order
  (all fields are string-typed, per the package contract); the zero value
  of `T` is the list of empty strings.
* `csvHelperImpl[T]` is `HelperState`: the stored records and the stored
  error from the last read.  Errors from the external `csv.Reader`
  collaborator are `ReadErr`; the package's own sentinel errors and the
  wrapped reader error form `VErr`.
* Functions that can return a Go `error` return `Option VErr`
  (`none` = nil error); `Marshal` returns an `Outcome`, whose `panic`
  constructor models a Go runtime panic
  (`reflect.Value.SetString` called on the zero `reflect.Value`).
* `strings.EqualFold` is modelled as equality of ASCII-case-folded code
  points (simple case folding; the claims only involve ASCII data).
-/

namespace CsvHelper

/-- A row of the CSV table: one string per cell. -/
abbrev Row := List String

/-- One declared field of the model type `T`: its Go field name and the
value of its `csv_column_name` struct tag (`""` when the tag is absent). -/
structure Field where
  name : String
  tag : String
deriving DecidableEq, Repr

instance : Inhabited Field := ⟨⟨"", ""⟩⟩

/-- The model type `T`, described by its ordered field declarations
(`reflect.TypeOf(model).Field(i)` for `i < NumField()`). -/
abbrev Model := List Field

/-- An instance of `T`: field values in declaration order. -/
abbrev Inst := List String

/-- The zero value of `T`: every string field is `""`. -/
def zeroInst (model : Model) : Inst := List.replicate model.length ""

/-- An error produced by the external row-reading collaborator
(`encoding/csv`), e.g. `csv.ErrFieldCount`; carried opaquely. -/
structure ReadErr where
  msg : String
deriving DecidableEq, Repr

/-- The errors surfaced by the package: its five declared sentinel errors
plus the verbatim propagation of a reader error. -/
inductive VErr where
  | readErr (e : ReadErr)
  | invalidHeaderSize
  | invalidHeaderValues
  | missingRequiredTag
  | duplicatedTag
  | uninitializedRecords
deriving DecidableEq, Repr

/-- Result of `Marshal`: Go's `([]T, error)` return, plus `panic` for the
runtime panic `reflect.Value.SetString` raises on the zero `Value`. -/
inductive Outcome (α : Type) where
  | ok (a : α)
  | err (e : VErr)
  | panic
deriving DecidableEq, Repr

/-- The `csvHelperImpl[T]` state: stored records and stored error. -/
structure HelperState where
  records : List Row
  err : Option ReadErr
deriving DecidableEq, Repr

/-- `New[T]()`: empty records, nil error. -/
def new : HelperState := ⟨[], none⟩

/-- `ReadAll`: stores the result of the external reader
(`csv.NewReader(buffer).ReadAll()`) into the state.  The Go method has a
value receiver, so it updates a copy and returns it: embedded as a pure
function from the old state and the read result to the new state. -/
def ReadAll (_ : HelperState) (result : List Row × Option ReadErr) :
    HelperState :=
  { records := result.1, err := result.2 }

/-- ASCII simple case folding of one code point: uppercase letters are
mapped to their lowercase counterparts. -/
def foldNat (n : ℕ) : ℕ := if 65 ≤ n ∧ n ≤ 90 then n + 32 else n

/-- The case-folded code points of a string. -/
def foldStr (s : String) : List ℕ := s.data.map (fun c => foldNat c.toNat)

/-- `strings.EqualFold` (simple case folding; modelled on ASCII, which is
all the package's comparisons need): two strings are equal up to letter
case. -/
def eqFold (a b : String) : Bool := foldStr a == foldStr b

/-- `validateIntegrity`: the stored error, if any, takes precedence;
otherwise empty records mean `ErrUninitializedRecords`. -/
def validateIntegrity (s : HelperState) : Option VErr :=
  match s.err with
  | some e => some (.readErr e)
  | none => if s.records = [] then some .uninitializedRecords else none

/-- The loop of `validateModelTags`: walks the fields in order, failing
with `ErrMissingRequiredTag` at the first empty tag, and otherwise
collecting the set of distinct tag values (the Go `tags` map's key set,
as a duplicate-free list). -/
def tagLoop : List Field → List String → Except VErr (List String)
  | [], acc => .ok acc
  | f :: rest, acc =>
    if f.tag = "" then .error .missingRequiredTag
    else tagLoop rest (if f.tag ∈ acc then acc else f.tag :: acc)

/-- `validateModelTags`: missing tag, then duplicated tag (the Go code
compares the size of the tag map with `NumField()`). -/
def validateModelTags (model : Model) : Option VErr :=
  match tagLoop model [] with
  | .error e => some e
  | .ok tags => if tags.length ≠ model.length then some .duplicatedTag
                else none

/-- `validate`: integrity first; unless skipped, model tags and then the
header size check `len(csvHeaders) != modelSize`.  (`c.records[0]` is only
read after the integrity check guarantees records are non-empty.) -/
def validate (model : Model) (s : HelperState) (cfg : Bool) : Option VErr :=
  match validateIntegrity s with
  | some e => some e
  | none =>
    if !cfg then
      match validateModelTags model with
      | some e => some e
      | none =>
        let csvHeaders := s.records.headD []
        if csvHeaders.length ≠ model.length then some .invalidHeaderSize
        else none
    else none

/-- `Validate()`: full validation, returning `(bool, error)`. -/
def Validate (model : Model) (s : HelperState) : Bool × Option VErr :=
  match validate model s false with
  | some e => (false, some e)
  | none => (true, none)

/-- `Records()`: full validation, then `(c.records, c.err)`; the `none`
first component models Go's nil slice on the error path. -/
def Records (model : Model) (s : HelperState) :
    Option (List Row) × Option VErr :=
  match validate model s false with
  | some e => (none, some e)
  | none => (some s.records, s.err.map .readErr)

/-- `Error()`: full validation, then the stored error. -/
def Error (model : Model) (s : HelperState) : Option VErr :=
  match validate model s false with
  | some e => some e
  | none => s.err.map .readErr

/-- Pointwise update of the `indexToFieldName` map (a Go
`map[int]string` write). -/
def insertIdx (m : ℕ → Option String) (j : ℕ) (nm : String) :
    ℕ → Option String :=
  fun k => if k = j then some nm else m k

/-- The inner loop of `mapIndexToField`: `for j, header := range
csvHeaders`, recording `indexToFieldName[j] = fieldName` whenever
`strings.EqualFold(tag, header)`; `j` starts at the given index. -/
def scanHeaders (tag nm : String) :
    List String → ℕ → (ℕ → Option String) → (ℕ → Option String)
  | [], _, m => m
  | h :: rest, j, m =>
    scanHeaders tag nm rest (j + 1)
      (if eqFold tag h then insertIdx m j nm else m)

/-- The outer loop of `mapIndexToField`: for each declared field in
order (Go iterates `i` up to `len(modelFieldsToColumns)`, which equals
`NumField()` because Go field names are distinct), scan the header row.
A later field's match overwrites an earlier one at the same index. -/
def resolveFields : List Field → List String → (ℕ → Option String) →
    (ℕ → Option String)
  | [], _, m => m
  | f :: rest, hdrs, m =>
    resolveFields rest hdrs (scanHeaders f.tag f.name hdrs 0 m)

/-- `mapIndexToField`: builds the column-index-to-field-name map from the
header row `csv[0]`.  (The Go method also returns a nil error.) -/
def mapIndexToField (model : Model) (csv : List Row) : ℕ → Option String :=
  resolveFields model (csv.headD []) (fun _ => none)

/-- `reflect.FieldByName`: the index of the field with the given name
(field names are distinct in Go, so the first match is the only one);
`none` models the zero `reflect.Value` returned when no field has that
name — in particular for the name `""` produced by a missing map entry. -/
def fieldIdx : Model → String → Option ℕ
  | [], _ => none
  | f :: rest, nm =>
    if f.name = nm then some 0 else (fieldIdx rest nm).map (· + 1)

/-- `reflect.ValueOf(&model).Elem().FieldByName(nm).SetString(v)`:
sets the named field, or models the Go panic (`SetString` on the zero
`Value`) by returning `none` when the name resolves to no field. -/
def setString (model : Model) (inst : Inst) (nm v : String) : Option Inst :=
  match fieldIdx model nm with
  | some i => some (inst.set i v)
  | none => none

/-- The inner loop of `assign`: `for index, data := range record`, looking
the cell's column index up in `indexToFieldName` (a missing entry yields
the zero string `""`) and writing the named field. -/
def bindCells (model : Model) (m : ℕ → Option String) :
    List String → ℕ → Inst → Option Inst
  | [], _, inst => some inst
  | data :: rest, j, inst =>
    match setString model inst ((m j).getD "") data with
    | some inst2 => bindCells model m rest (j + 1) inst2
    | none => none

/-- The outer loop of `assign` over the data rows: each row is bound
starting from the zero value of `T` and appended to the output. -/
def assignLoop (model : Model) (m : ℕ → Option String) :
    List Row → Option (List Inst)
  | [] => some []
  | r :: rest =>
    match bindCells model m r 0 (zeroInst model) with
    | some inst => (assignLoop model m rest).map (inst :: ·)
    | none => none

/-- `assign`: skips the header row (`index == 0` hits `continue`) and
binds every remaining row in order. -/
def assign (model : Model) (records : List Row)
    (m : ℕ → Option String) : Option (List Inst) :=
  assignLoop model m (records.drop 1)

/-- `Marshal`: validation (schema checks skippable), then header
resolution, then row binding; `.panic` models the reflection panic
inside `assign`. -/
def Marshal (model : Model) (s : HelperState) (cfg : Bool) :
    Outcome (List Inst) :=
  match validate model s cfg with
  | some e => .err e
  | none =>
    match assign model s.records (mapIndexToField model s.records) with
    | some out => .ok out
    | none => .panic

/-- Field `f` matches column `k` of the header: `k` is in range and the
field's tag case-insensitively equals the header cell at `k`.  (Abbreviates
the matching condition of the resolver's inner loop.) -/
def matchesAt (hdrs : List String) (f : Field) (k : ℕ) : Bool :=
  decide (k < hdrs.length) && eqFold f.tag (hdrs.getD k "")

/-- Apply a permutation to the cells of a row of width `n`: cell `j` of
the new row is cell `σ j` of the old one. -/
def permuteRow {n : ℕ} (σ : Equiv.Perm (Fin n)) (r : Row) : Row :=
  List.ofFn (fun j : Fin n => r.getD ((σ j).val) "")

/-- The `person` record type of the package's README: two string fields
tagged "name" and "lastname". -/
def personModel : Model := [⟨"Name", "name"⟩, ⟨"LastName", "lastname"⟩]

/-- The helper state after reading the README's example file. -/
def scenarioA : HelperState :=
  ⟨[["name", "lastname"], ["Lucas", "Montenegro"],
    ["Vinicius", "Vieira"]], none⟩

/-! ### Lemmas about tag validation -/

theorem tagLoop_error_eq {fields : List Field} {acc : List String} {e : VErr}
    (h : tagLoop fields acc = .error e) : e = .missingRequiredTag := by
  induction fields generalizing acc with
  | nil => simp [tagLoop] at h
  | cons f rest ih =>
    rw [tagLoop] at h
    by_cases hf : f.tag = ""
    · rw [if_pos hf] at h
      exact (Except.error.inj h).symm
    · rw [if_neg hf] at h
      exact ih h

theorem tagLoop_missing {fields : List Field}
    (h : ∃ f ∈ fields, f.tag = "") :
    ∀ acc, tagLoop fields acc = .error .missingRequiredTag := by
  induction fields with
  | nil => simp at h
  | cons f rest ih =>
    intro acc
    rw [tagLoop]
    by_cases hf : f.tag = ""
    · rw [if_pos hf]
    · rw [if_neg hf]
      apply ih
      rcases h with ⟨g, hg, hge⟩
      rcases List.mem_cons.1 hg with hgf | hgr
      · exact absurd (hgf ▸ hge) hf
      · exact ⟨g, hgr, hge⟩

theorem tagLoop_ok {fields : List Field}
    (hne : ∀ f ∈ fields, f.tag ≠ "") :
    ∀ acc, acc.Nodup →
    ∃ acc2, tagLoop fields acc = .ok acc2 ∧ acc2.Nodup ∧
      acc2.toFinset = acc.toFinset ∪ (fields.map (·.tag)).toFinset := by
  induction fields with
  | nil =>
    intro acc hacc
    exact ⟨acc, rfl, hacc, by simp⟩
  | cons f rest ih =>
    intro acc hacc
    have hf : f.tag ≠ "" := hne f (List.mem_cons_self f rest)
    have hne2 : ∀ g ∈ rest, g.tag ≠ "" := fun g hg =>
      hne g (List.mem_cons_of_mem f hg)
    rw [tagLoop, if_neg hf]
    by_cases hmem : f.tag ∈ acc
    · rw [if_pos hmem]
      obtain ⟨acc2, h1, h2, h3⟩ := ih hne2 acc hacc
      refine ⟨acc2, h1, h2, ?_⟩
      rw [h3]
      ext x
      simp only [Finset.mem_union, List.mem_toFinset, List.map_cons,
        List.toFinset_cons, Finset.mem_insert]
      constructor
      · tauto
      · rintro (h | h | h)
        · exact Or.inl h
        · exact Or.inl (by rw [h]; exact hmem)
        · exact Or.inr h
    · rw [if_neg hmem]
      have hacc2 : (f.tag :: acc).Nodup := List.nodup_cons.2 ⟨hmem, hacc⟩
      obtain ⟨acc2, h1, h2, h3⟩ := ih hne2 (f.tag :: acc) hacc2
      refine ⟨acc2, h1, h2, ?_⟩
      rw [h3]
      ext x
      simp only [Finset.mem_union, List.mem_toFinset, List.mem_cons,
        List.map_cons, List.toFinset_cons, Finset.mem_insert]
      tauto

theorem validateModelTags_missing {model : Model}
    (h : ∃ f ∈ model, f.tag = "") :
    validateModelTags model = some .missingRequiredTag := by
  unfold validateModelTags
  rw [tagLoop_missing h []]

theorem validateModelTags_of_nonempty {model : Model}
    (hne : ∀ f ∈ model, f.tag ≠ "") :
    validateModelTags model =
      if (model.map (·.tag)).Nodup then none else some .duplicatedTag := by
  obtain ⟨acc2, h1, h2, h3⟩ := tagLoop_ok hne [] List.nodup_nil
  have hlen : acc2.length = (model.map (·.tag)).dedup.length := by
    rw [← List.toFinset_card_of_nodup h2, h3]
    simp [List.card_toFinset]
  have hml : (model.map (·.tag)).length = model.length := by simp
  unfold validateModelTags
  rw [h1]
  show (if acc2.length ≠ model.length then some VErr.duplicatedTag else none)
    = _
  by_cases hnd : (model.map (·.tag)).Nodup
  · have hd : (model.map (·.tag)).dedup.length = (model.map (·.tag)).length :=
      by rw [List.dedup_eq_self.2 hnd]
    rw [if_pos hnd, if_neg (by omega)]
  · have hd : (model.map (·.tag)).dedup.length ≠ (model.map (·.tag)).length :=
      fun heq => hnd (List.dedup_eq_self.1
        ((List.dedup_sublist _).eq_of_length heq))
    have hd2 : (model.map (·.tag)).dedup.length ≤ (model.map (·.tag)).length :=
      (List.dedup_sublist _).length_le
    rw [if_neg hnd, if_pos (by omega)]

theorem validateModelTags_ne_ihv (model : Model) :
    validateModelTags model ≠ some .invalidHeaderValues := by
  unfold validateModelTags
  cases htl : tagLoop model [] with
  | error e =>
    have := tagLoop_error_eq htl
    subst this
    simp
  | ok tags =>
    by_cases h : tags.length ≠ model.length <;> simp [h]

theorem validate_ne_ihv (model : Model) (s : HelperState) (b : Bool) :
    validate model s b ≠ some .invalidHeaderValues := by
  unfold validate validateIntegrity
  cases s.err with
  | some e => simp
  | none =>
    by_cases hr : s.records = []
    · simp [hr]
    · cases b with
      | true => simp [hr]
      | false =>
        simp only [hr, if_neg, if_false, Bool.not_false, if_true]
        cases hm : validateModelTags model with
        | some e =>
          have := validateModelTags_ne_ihv model
          simp [hm] at this ⊢
          exact fun h => this (h ▸ rfl)
        | none =>
          by_cases hl : (s.records.headD []).length ≠ model.length <;>
            simp [hl]

theorem validateIntegrity_none {s : HelperState}
    (hs : s.err = none) (hr : s.records ≠ []) :
    validateIntegrity s = none := by
  unfold validateIntegrity
  rw [hs, if_neg hr]

theorem validate_full_eq {model : Model} {s : HelperState}
    (hs : s.err = none) (hr : s.records ≠ []) :
    validate model s false =
      match validateModelTags model with
      | some e => some e
      | none =>
        if (s.records.headD []).length ≠ model.length
        then some .invalidHeaderSize else none := by
  unfold validate
  rw [validateIntegrity_none hs hr]
  rfl

theorem validate_full_missing {model : Model} {s : HelperState}
    (hs : s.err = none) (hr : s.records ≠ [])
    (hmiss : ∃ f ∈ model, f.tag = "") :
    validate model s false = some .missingRequiredTag := by
  rw [validate_full_eq hs hr, validateModelTags_missing hmiss]

theorem validate_full_dup {model : Model} {s : HelperState}
    (hs : s.err = none) (hr : s.records ≠ [])
    (hne : ∀ f ∈ model, f.tag ≠ "") (hdup : ¬ (model.map (·.tag)).Nodup) :
    validate model s false = some .duplicatedTag := by
  rw [validate_full_eq hs hr, validateModelTags_of_nonempty hne,
    if_neg hdup]

theorem validate_full_size {model : Model} {s : HelperState}
    (hs : s.err = none) (hr : s.records ≠ [])
    (hne : ∀ f ∈ model, f.tag ≠ "") (hnd : (model.map (·.tag)).Nodup)
    (hlen : (s.records.headD []).length ≠ model.length) :
    validate model s false = some .invalidHeaderSize := by
  rw [validate_full_eq hs hr, validateModelTags_of_nonempty hne,
    if_pos hnd]
  show (if (s.records.headD []).length ≠ model.length
    then some VErr.invalidHeaderSize else none) = _
  rw [if_pos hlen]

theorem validate_full_pass {model : Model} {s : HelperState}
    (hs : s.err = none) (hr : s.records ≠ [])
    (hne : ∀ f ∈ model, f.tag ≠ "") (hnd : (model.map (·.tag)).Nodup)
    (hlen : (s.records.headD []).length = model.length) :
    validate model s false = none := by
  rw [validate_full_eq hs hr, validateModelTags_of_nonempty hne,
    if_pos hnd]
  show (if (s.records.headD []).length ≠ model.length
    then some VErr.invalidHeaderSize else none) = _
  rw [if_neg (by omega)]

/-! ### Characterization of the header resolver -/

theorem matchesAt_true_iff {hdrs : List String} {f : Field} {k : ℕ} :
    matchesAt hdrs f k = true ↔
      k < hdrs.length ∧ foldStr f.tag = foldStr (hdrs.getD k "") := by
  simp [matchesAt, eqFold]

theorem scanHeaders_apply (tag nm : String) :
    ∀ (hdrs : List String) (j : ℕ) (m : ℕ → Option String) (k : ℕ),
    scanHeaders tag nm hdrs j m k =
      if j ≤ k ∧ k < j + hdrs.length ∧
          eqFold tag (hdrs.getD (k - j) "") = true
      then some nm else m k := by
  intro hdrs
  induction hdrs with
  | nil =>
    intro j m k
    rw [scanHeaders, if_neg]
    rintro ⟨h1, h2, _⟩
    simp at h2
    omega
  | cons h rest ih =>
    intro j m k
    rw [scanHeaders, ih]
    have hins : (if eqFold tag h then insertIdx m j nm else m) k
        = if k = j ∧ eqFold tag h = true then some nm else m k := by
      by_cases hf : eqFold tag h <;> by_cases hkj : k = j <;>
        simp [insertIdx, hf, hkj]
    rw [hins]
    simp only [List.length_cons]
    rcases Nat.lt_trichotomy k j with hlt | heq | hgt
    · have hn1 : ¬(j + 1 ≤ k ∧ k < j + 1 + rest.length ∧
          eqFold tag (rest.getD (k - (j + 1)) "") = true) := by
        rintro ⟨a, _, _⟩
        omega
      have hn2 : ¬(k = j ∧ eqFold tag h = true) := by
        rintro ⟨a, _⟩
        omega
      have hn3 : ¬(j ≤ k ∧ k < j + (rest.length + 1) ∧
          eqFold tag ((h :: rest).getD (k - j) "") = true) := by
        rintro ⟨a, _, _⟩
        omega
      rw [if_neg hn1, if_neg hn2, if_neg hn3]
    · subst heq
      have hn1 : ¬(k + 1 ≤ k ∧ k < k + 1 + rest.length ∧
          eqFold tag (rest.getD (k - (k + 1)) "") = true) := by
        rintro ⟨a, _, _⟩
        omega
      rw [if_neg hn1]
      by_cases hf : eqFold tag h = true
      · have hp : k ≤ k ∧ k < k + (rest.length + 1) ∧
            eqFold tag ((h :: rest).getD (k - k) "") = true := by
          refine ⟨le_refl k, by omega, ?_⟩
          rw [Nat.sub_self, List.getD_cons_zero]
          exact hf
        rw [if_pos ⟨rfl, hf⟩, if_pos hp]
      · have hn2 : ¬(k = k ∧ eqFold tag h = true) := by
          rintro ⟨_, hf2⟩
          exact hf hf2
        have hn3 : ¬(k ≤ k ∧ k < k + (rest.length + 1) ∧
            eqFold tag ((h :: rest).getD (k - k) "") = true) := by
          rintro ⟨_, _, h3⟩
          rw [Nat.sub_self, List.getD_cons_zero] at h3
          exact hf h3
        rw [if_neg hn2, if_neg hn3]
    · have hn2 : ¬(k = j ∧ eqFold tag h = true) := by
        rintro ⟨hk1, _⟩
        omega
      rw [if_neg hn2]
      have hsub : k - j = (k - (j + 1)) + 1 := by omega
      rw [hsub, List.getD_cons_succ]
      refine if_congr ?_ rfl rfl
      constructor
      · rintro ⟨a, b, c⟩
        exact ⟨by omega, by omega, c⟩
      · rintro ⟨a, b, c⟩
        exact ⟨by omega, by omega, c⟩

theorem resolveFields_apply :
    ∀ (fields : List Field) (hdrs : List String) (m : ℕ → Option String)
      (k : ℕ),
    resolveFields fields hdrs m k =
      match fields.reverse.find? (fun f => matchesAt hdrs f k) with
      | some f => some f.name
      | none => m k := by
  intro fields
  induction fields with
  | nil =>
    intro hdrs m k
    rfl
  | cons f rest ih =>
    intro hdrs m k
    rw [resolveFields, ih]
    have hscan : scanHeaders f.tag f.name hdrs 0 m k
        = if matchesAt hdrs f k then some f.name else m k := by
      rw [scanHeaders_apply]
      refine if_congr ?_ rfl rfl
      simp [matchesAt, Bool.and_eq_true]
    rw [hscan, List.reverse_cons, List.find?_append]
    cases hrf : rest.reverse.find? (fun g => matchesAt hdrs g k) with
    | some g => rfl
    | none =>
      by_cases hm : matchesAt hdrs f k = true
      · have hfind1 : List.find? (fun g => matchesAt hdrs g k) [f]
            = some f := by
          simp only [List.find?, hm]
        rw [if_pos hm, hfind1]
        rfl
      · have hmf : matchesAt hdrs f k = false := by
          simpa using hm
        have hfind1 : List.find? (fun g => matchesAt hdrs g k) [f]
            = none := by
          simp only [List.find?, hmf]
        rw [if_neg hm, hfind1]
        rfl

theorem mapIndexToField_apply (model : Model) (hdrs : List String)
    (rows : List Row) (k : ℕ) :
    mapIndexToField model (hdrs :: rows) k =
      match model.reverse.find? (fun f => matchesAt hdrs f k) with
      | some f => some f.name
      | none => none := by
  show resolveFields model ((hdrs :: rows).headD []) (fun _ => none) k = _
  rw [resolveFields_apply]
  rfl

theorem mapIndexToField_eq_some {model : Model} {hdrs : List String}
    {rows : List Row} {nm : String} {k : ℕ}
    (h : mapIndexToField model (hdrs :: rows) k = some nm) :
    ∃ f ∈ model, f.name = nm ∧ matchesAt hdrs f k = true := by
  rw [mapIndexToField_apply] at h
  cases hf : model.reverse.find? (fun f => matchesAt hdrs f k) with
  | none =>
    rw [hf] at h
    simp at h
  | some g =>
    rw [hf] at h
    have hg1 : g ∈ model := List.mem_reverse.1 (List.mem_of_find?_eq_some hf)
    have hg2 : matchesAt hdrs g k = true := by
      simpa using List.find?_some hf
    exact ⟨g, hg1, Option.some.inj h, hg2⟩

theorem mapIndexToField_eq_some_of {model : Model} {hdrs : List String}
    {rows : List Row} {f : Field} {k : ℕ}
    (htags : (model.map (fun g => foldStr g.tag)).Nodup)
    (hf : f ∈ model) (hm : matchesAt hdrs f k = true) :
    mapIndexToField model (hdrs :: rows) k = some f.name := by
  rw [mapIndexToField_apply]
  cases hfind : model.reverse.find? (fun g => matchesAt hdrs g k) with
  | none =>
    exact absurd hm
      (List.find?_eq_none.1 hfind f (List.mem_reverse.2 hf))
  | some g =>
    have hg1 : g ∈ model :=
      List.mem_reverse.1 (List.mem_of_find?_eq_some hfind)
    have hg2 : matchesAt hdrs g k = true := by
      simpa using List.find?_some hfind
    have htg : foldStr g.tag = foldStr f.tag := by
      rw [matchesAt_true_iff] at hm hg2
      rw [hg2.2, hm.2]
    have : g = f := List.inj_on_of_nodup_map htags hg1 hf htg
    rw [this]

theorem mapIndexToField_none_of_ge {model : Model} {hdrs : List String}
    {rows : List Row} {k : ℕ} (hk : hdrs.length ≤ k) :
    mapIndexToField model (hdrs :: rows) k = none := by
  rw [mapIndexToField_apply]
  cases hfind : model.reverse.find? (fun g => matchesAt hdrs g k) with
  | none => rfl
  | some g =>
    have := List.find?_some hfind
    rw [matchesAt_true_iff] at this
    omega

/-! ### Characterization of field lookup and row binding -/

theorem fieldIdx_lt {model : Model} {nm : String} {i : ℕ}
    (h : fieldIdx model nm = some i) : i < model.length := by
  induction model generalizing i with
  | nil => simp [fieldIdx] at h
  | cons f rest ih =>
    rw [fieldIdx] at h
    by_cases hf : f.name = nm
    · rw [if_pos hf] at h
      have := Option.some.inj h
      simp [← this]
    · rw [if_neg hf] at h
      cases hr : fieldIdx rest nm with
      | none =>
        rw [hr] at h
        simp at h
      | some i0 =>
        rw [hr] at h
        simp at h
        have := ih hr
        simp
        omega

theorem fieldIdx_name {model : Model} {nm : String} {i : ℕ}
    (h : fieldIdx model nm = some i) :
    (model.getD i default).name = nm := by
  induction model generalizing i with
  | nil => simp [fieldIdx] at h
  | cons f rest ih =>
    rw [fieldIdx] at h
    by_cases hf : f.name = nm
    · rw [if_pos hf] at h
      have := Option.some.inj h
      rw [← this, List.getD_cons_zero]
      exact hf
    · rw [if_neg hf] at h
      cases hr : fieldIdx rest nm with
      | none =>
        rw [hr] at h
        simp at h
      | some i0 =>
        rw [hr] at h
        simp at h
        rw [← h, List.getD_cons_succ]
        exact ih hr

theorem fieldIdx_mem {model : Model} {nm : String} {i : ℕ}
    (h : fieldIdx model nm = some i) : ∃ f ∈ model, f.name = nm := by
  have hlt := fieldIdx_lt h
  have hnm := fieldIdx_name h
  rw [List.getD_eq_getElem model default hlt] at hnm
  exact ⟨model[i], List.getElem_mem hlt, hnm⟩

theorem fieldIdx_isSome_of_mem {model : Model} {f : Field}
    (hf : f ∈ model) : (fieldIdx model f.name).isSome := by
  induction model with
  | nil => simp at hf
  | cons g rest ih =>
    rw [fieldIdx]
    by_cases hg : g.name = f.name
    · simp [hg]
    · rw [if_neg hg]
      rcases List.mem_cons.1 hf with hfg | hfr
      · exact absurd (hfg ▸ rfl) hg
      · cases hr : fieldIdx rest f.name with
        | none =>
          have := ih hfr
          rw [hr] at this
          simp at this
        | some i0 => simp

theorem fieldIdx_empty_of_names {model : Model}
    (h0 : ∀ f ∈ model, f.name ≠ "") : fieldIdx model "" = none := by
  cases hfi : fieldIdx model "" with
  | none => rfl
  | some i =>
    obtain ⟨f, hf, hnm⟩ := fieldIdx_mem hfi
    exact absurd hnm (h0 f hf)

theorem bindCells_isSome_iff {model : Model} {m : ℕ → Option String} :
    ∀ (cells : List String) (j : ℕ) (inst : Inst),
    (bindCells model m cells j inst).isSome = true ↔
    ∀ t, t < cells.length →
      (fieldIdx model ((m (j + t)).getD "")).isSome := by
  intro cells
  induction cells with
  | nil =>
    intro j inst
    simp [bindCells]
  | cons data rest ih =>
    intro j inst
    rw [bindCells]
    cases hfi : fieldIdx model ((m j).getD "") with
    | none =>
      have hs : setString model inst ((m j).getD "") data = none := by
        unfold setString
        rw [hfi]
      rw [hs]
      simp only [Option.isSome_none]
      constructor
      · intro hfalse
        cases hfalse
      · intro hall
        have := hall 0 (by simp)
        rw [Nat.add_zero, hfi] at this
        cases this
    | some i =>
      have hs : setString model inst ((m j).getD "") data
          = some (inst.set i data) := by
        unfold setString
        rw [hfi]
      rw [hs]
      rw [ih]
      constructor
      · intro hall t ht
        cases t with
        | zero =>
          rw [Nat.add_zero, hfi]
          simp
        | succ t0 =>
          have h2 := hall t0 (by simp at ht; omega)
          rw [show j + (t0 + 1) = j + 1 + t0 by omega]
          exact h2
      · intro hall t ht
        have h2 := hall (t + 1) (by simp; omega)
        rw [show j + 1 + t = j + (t + 1) by omega]
        exact h2

theorem bindCells_length {model : Model} {m : ℕ → Option String} :
    ∀ {cells : List String} {j : ℕ} {inst out : Inst},
    bindCells model m cells j inst = some out → out.length = inst.length := by
  intro cells
  induction cells with
  | nil =>
    intro j inst out h
    rw [bindCells] at h
    rw [← Option.some.inj h]
  | cons data rest ih =>
    intro j inst out h
    rw [bindCells] at h
    cases hfi : fieldIdx model ((m j).getD "") with
    | none =>
      have hs : setString model inst ((m j).getD "") data = none := by
        unfold setString
        rw [hfi]
      rw [hs] at h
      cases h
    | some i =>
      have hs : setString model inst ((m j).getD "") data
          = some (inst.set i data) := by
        unfold setString
        rw [hfi]
      rw [hs] at h
      have := ih h
      rw [this, List.length_set]

theorem bindCells_get_of_not_target {model : Model} {m : ℕ → Option String} :
    ∀ (cells : List String) (j : ℕ) (inst out : Inst) (i : ℕ),
    bindCells model m cells j inst = some out →
    (∀ t, t < cells.length →
      fieldIdx model ((m (j + t)).getD "") ≠ some i) →
    out[i]? = inst[i]? := by
  intro cells
  induction cells with
  | nil =>
    intro j inst out i h _
    rw [bindCells] at h
    rw [← Option.some.inj h]
  | cons data rest ih =>
    intro j inst out i h hno
    rw [bindCells] at h
    cases hfi : fieldIdx model ((m j).getD "") with
    | none =>
      have hs : setString model inst ((m j).getD "") data = none := by
        unfold setString
        rw [hfi]
      rw [hs] at h
      cases h
    | some i2 =>
      have hs : setString model inst ((m j).getD "") data
          = some (inst.set i2 data) := by
        unfold setString
        rw [hfi]
      rw [hs] at h
      have hstep := ih (j + 1) (inst.set i2 data) out i h (by
        intro t ht
        have := hno (t + 1) (by simp; omega)
        rw [show j + (t + 1) = j + 1 + t by omega] at this
        exact this)
      rw [hstep]
      have hne : i2 ≠ i := by
        intro he
        have := hno 0 (by simp)
        rw [Nat.add_zero, hfi] at this
        exact this (by rw [he])
      exact List.getElem?_set_ne hne

theorem bindCells_get_of_target {model : Model} {m : ℕ → Option String} :
    ∀ (cells : List String) (j : ℕ) (inst out : Inst) (i t0 : ℕ),
    bindCells model m cells j inst = some out →
    inst.length = model.length →
    t0 < cells.length →
    fieldIdx model ((m (j + t0)).getD "") = some i →
    (∀ t, t < cells.length → t ≠ t0 →
      fieldIdx model ((m (j + t)).getD "") ≠ some i) →
    out[i]? = cells[t0]? := by
  intro cells
  induction cells with
  | nil =>
    intro j inst out i t0 _ _ ht0
    simp at ht0
  | cons data rest ih =>
    intro j inst out i t0 h hlen ht0 hidx huniq
    rw [bindCells] at h
    cases hfi : fieldIdx model ((m j).getD "") with
    | none =>
      have hs : setString model inst ((m j).getD "") data = none := by
        unfold setString
        rw [hfi]
      rw [hs] at h
      cases h
    | some i2 =>
      have hs : setString model inst ((m j).getD "") data
          = some (inst.set i2 data) := by
        unfold setString
        rw [hfi]
      rw [hs] at h
      cases t0 with
      | zero =>
        have hii : i2 = i := by
          rw [Nat.add_zero] at hidx
          rw [hfi] at hidx
          exact Option.some.inj hidx
        subst hii
        have hno : ∀ t, t < rest.length →
            fieldIdx model ((m (j + 1 + t)).getD "") ≠ some i2 := by
          intro t ht
          have := huniq (t + 1) (by simp; omega) (by omega)
          rw [show j + (t + 1) = j + 1 + t by omega] at this
          exact this
        rw [bindCells_get_of_not_target rest (j + 1) (inst.set i2 data)
          out i2 h hno]
        have hlt : i2 < inst.length := by
          rw [hlen]
          exact fieldIdx_lt hfi
        rw [List.getElem?_set_eq_of_lt data hlt, List.getElem?_cons_zero]
      | succ t1 =>
        have hres := ih (j + 1) (inst.set i2 data) out i t1 h
          (by rw [List.length_set]; exact hlen)
          (by simp at ht0; omega)
          (by rw [show j + 1 + t1 = j + (t1 + 1) by omega]; exact hidx)
          (by
            intro t ht htne
            have := huniq (t + 1) (by simp; omega) (by omega)
            rw [show j + (t + 1) = j + 1 + t by omega] at this
            exact this)
        rw [hres, List.getElem?_cons_succ]

theorem assignLoop_eq_some_iff {model : Model} {m : ℕ → Option String} :
    ∀ (rows : List Row) (out : List Inst),
    assignLoop model m rows = some out ↔
      (out.length = rows.length ∧ ∀ i, i < rows.length →
        bindCells model m (rows.getD i []) 0 (zeroInst model)
          = some (out.getD i [])) := by
  intro rows
  induction rows with
  | nil =>
    intro out
    rw [assignLoop]
    constructor
    · intro h
      rw [← Option.some.inj h]
      exact ⟨rfl, fun i hi => by simp at hi⟩
    · rintro ⟨hl, _⟩
      rw [List.length_eq_zero.1 hl]
  | cons r rest ih =>
    intro out
    rw [assignLoop]
    cases hb : bindCells model m r 0 (zeroInst model) with
    | none =>
      constructor
      · intro h
        cases h
      · rintro ⟨hl, hall⟩
        have := hall 0 (by simp)
        rw [List.getD_cons_zero, hb] at this
        cases this
    | some inst =>
      constructor
      · intro h
        cases har : assignLoop model m rest with
        | none =>
          rw [har] at h
          cases h
        | some out2 =>
          rw [har] at h
          have hout : out = inst :: out2 := (Option.some.inj h).symm
          obtain ⟨hl2, hall2⟩ := (ih out2).1 har
          subst hout
          refine ⟨by simp [hl2], ?_⟩
          intro i hi
          cases i with
          | zero =>
            rw [List.getD_cons_zero, List.getD_cons_zero, hb]
          | succ i0 =>
            rw [List.getD_cons_succ, List.getD_cons_succ]
            refine hall2 i0 ?_
            simp at hi
            omega
      · rintro ⟨hl, hall⟩
        cases out with
        | nil => simp at hl
        | cons o orest =>
          have h0 := hall 0 (by simp)
          rw [List.getD_cons_zero, List.getD_cons_zero, hb] at h0
          have ho : inst = o := Option.some.inj h0
          have hrest : assignLoop model m rest = some orest := by
            apply (ih orest).2
            constructor
            · simp at hl
              exact hl
            · intro i hi
              have := hall (i + 1) (by simp; omega)
              rw [List.getD_cons_succ, List.getD_cons_succ] at this
              exact this
          rw [hrest, ho]
          rfl

theorem assignLoop_none_of_mem {model : Model} {m : ℕ → Option String}
    {rows : List Row} {r : Row} (hr : r ∈ rows)
    (hb : bindCells model m r 0 (zeroInst model) = none) :
    assignLoop model m rows = none := by
  induction rows with
  | nil => simp at hr
  | cons r2 rest ih =>
    rw [assignLoop]
    rcases List.mem_cons.1 hr with he | hm2
    · rw [← he, hb]
    · cases hb2 : bindCells model m r2 0 (zeroInst model) with
      | none => rfl
      | some inst =>
        rw [ih hm2]
        rfl

theorem assignLoop_isSome_of {model : Model} {m : ℕ → Option String}
    {rows : List Row}
    (hall : ∀ r ∈ rows,
      (bindCells model m r 0 (zeroInst model)).isSome = true) :
    ∃ out, assignLoop model m rows = some out := by
  induction rows with
  | nil => exact ⟨[], rfl⟩
  | cons r rest ih =>
    have h0 := hall r (List.mem_cons_self r rest)
    cases hb : bindCells model m r 0 (zeroInst model) with
    | none =>
      rw [hb] at h0
      simp at h0
    | some inst =>
      obtain ⟨out2, h2⟩ := ih (fun r2 h2 => hall r2 (List.mem_cons_of_mem _ h2))
      refine ⟨inst :: out2, ?_⟩
      rw [assignLoop, hb, h2]
      rfl

theorem marshal_ok_inv {model : Model} {s : HelperState} {cfg : Bool}
    {out : List Inst} (h : Marshal model s cfg = .ok out) :
    validate model s cfg = none ∧
    assignLoop model (mapIndexToField model s.records)
      (s.records.drop 1) = some out := by
  unfold Marshal at h
  cases hv : validate model s cfg with
  | some e =>
    rw [hv] at h
    exact Outcome.noConfusion h
  | none =>
    rw [hv] at h
    unfold assign at h
    cases ha : assignLoop model (mapIndexToField model s.records)
        (s.records.drop 1) with
    | none =>
      rw [ha] at h
      exact Outcome.noConfusion h
    | some out2 =>
      rw [ha] at h
      exact ⟨rfl, by rw [Outcome.ok.inj h]⟩

theorem marshal_ok_intro {model : Model} {s : HelperState} {cfg : Bool}
    {out : List Inst} (hv : validate model s cfg = none)
    (ha : assignLoop model (mapIndexToField model s.records)
      (s.records.drop 1) = some out) :
    Marshal model s cfg = .ok out := by
  unfold Marshal
  rw [hv]
  unfold assign
  rw [ha]

theorem validate_skip {model : Model} {s : HelperState}
    (hs : s.err = none) (hr : s.records ≠ []) :
    validate model s true = none := by
  unfold validate
  rw [validateIntegrity_none hs hr]
  rfl

theorem validate_full_none_inv {model : Model} {s : HelperState}
    (hs : s.err = none) (hr : s.records ≠ [])
    (h : validate model s false = none) :
    validateModelTags model = none ∧
    (s.records.headD []).length = model.length := by
  rw [validate_full_eq hs hr] at h
  cases hm : validateModelTags model with
  | some e =>
    rw [hm] at h
    exact Option.noConfusion h
  | none =>
    rw [hm] at h
    refine ⟨rfl, ?_⟩
    by_cases hlen : (s.records.headD []).length = model.length
    · exact hlen
    · rw [if_pos hlen] at h
      exact Option.noConfusion h

theorem validate_full_of_tags_none {model : Model} {s : HelperState}
    (hs : s.err = none) (hr : s.records ≠ [])
    (htn : validateModelTags model = none)
    (hlen : (s.records.headD []).length = model.length) :
    validate model s false = none := by
  rw [validate_full_eq hs hr, htn]
  show (if (s.records.headD []).length ≠ model.length
    then some VErr.invalidHeaderSize else none) = _
  rw [if_neg (by omega)]

/-! ### Lemmas about row permutation -/

theorem permuteRow_length {n : ℕ} (σ : Equiv.Perm (Fin n)) (r : Row) :
    (permuteRow σ r).length = n :=
  List.length_ofFn _

theorem permuteRow_getElem? {n : ℕ} (σ : Equiv.Perm (Fin n)) (r : Row)
    {k : ℕ} (hk : k < n) :
    (permuteRow σ r)[k]? = some (r.getD ((σ ⟨k, hk⟩).val) "") := by
  unfold permuteRow
  rw [List.getElem?_ofFn]
  simp [List.ofFnNthVal, hk]

theorem permuteRow_getD {n : ℕ} (σ : Equiv.Perm (Fin n)) (r : Row)
    {k : ℕ} (hk : k < n) :
    (permuteRow σ r).getD k "" = r.getD ((σ ⟨k, hk⟩).val) "" := by
  rw [List.getD_eq_getElem?_getD, permuteRow_getElem? σ r hk]
  rfl

theorem mapIndexToField_perm (model : Model) (hdrs : List String)
    (rows rows2 : List Row) (σ : Equiv.Perm (Fin hdrs.length))
    {k : ℕ} (hk : k < hdrs.length) :
    mapIndexToField model (permuteRow σ hdrs :: rows2) k
      = mapIndexToField model (hdrs :: rows) ((σ ⟨k, hk⟩).val) := by
  rw [mapIndexToField_apply, mapIndexToField_apply]
  have hpred : (fun f => matchesAt (permuteRow σ hdrs) f k)
      = (fun f => matchesAt hdrs f ((σ ⟨k, hk⟩).val)) := by
    funext f
    unfold matchesAt
    rw [permuteRow_getD σ hdrs hk]
    have h1 : k < (permuteRow σ hdrs).length := by
      rw [permuteRow_length]
      exact hk
    have h2 : ((σ ⟨k, hk⟩).val) < hdrs.length := (σ ⟨k, hk⟩).isLt
    simp [h1, h2]
  rw [hpred]

theorem map_target_unique {model : Model} {hdrs : List String}
    {rows : List Row}
    (hnames0 : ∀ f ∈ model, f.name ≠ "")
    (hnames : (model.map (·.name)).Nodup)
    (hhdrs : (hdrs.map foldStr).Nodup)
    {t t2 iF : ℕ} (ht : t < hdrs.length) (ht2 : t2 < hdrs.length)
    (h1 : fieldIdx model
      ((mapIndexToField model (hdrs :: rows) t).getD "") = some iF)
    (h2 : fieldIdx model
      ((mapIndexToField model (hdrs :: rows) t2).getD "") = some iF) :
    t = t2 := by
  cases hmt : mapIndexToField model (hdrs :: rows) t with
  | none =>
    rw [hmt, Option.getD_none, fieldIdx_empty_of_names hnames0] at h1
    exact Option.noConfusion h1
  | some nm1 =>
    cases hmt2 : mapIndexToField model (hdrs :: rows) t2 with
    | none =>
      rw [hmt2, Option.getD_none, fieldIdx_empty_of_names hnames0] at h2
      exact Option.noConfusion h2
    | some nm2 =>
      rw [hmt, Option.getD_some] at h1
      rw [hmt2, Option.getD_some] at h2
      have hn1 := fieldIdx_name h1
      have hn2 := fieldIdx_name h2
      have hnm : nm1 = nm2 := by rw [← hn1, ← hn2]
      obtain ⟨f, hfmem, hfname, hfmatch⟩ := mapIndexToField_eq_some hmt
      obtain ⟨g, hgmem, hgname, hgmatch⟩ := mapIndexToField_eq_some hmt2
      have hfg : f = g := List.inj_on_of_nodup_map hnames hfmem hgmem
        (by rw [hfname, hgname, hnm])
      rw [matchesAt_true_iff] at hfmatch hgmatch
      have hfold : foldStr (hdrs.getD t "") = foldStr (hdrs.getD t2 "") := by
        rw [← hfmatch.2, hfg, hgmatch.2]
      rw [List.getD_eq_getElem hdrs "" ht,
        List.getD_eq_getElem hdrs "" ht2] at hfold
      have hmapl : t < (hdrs.map foldStr).length := by simpa using ht
      have hmapl2 : t2 < (hdrs.map foldStr).length := by simpa using ht2
      have hget : (hdrs.map foldStr).get ⟨t, hmapl⟩
          = (hdrs.map foldStr).get ⟨t2, hmapl2⟩ := by
        simp only [List.get_eq_getElem, List.getElem_map]
        exact hfold
      have hfin := List.nodup_iff_injective_get.1 hhdrs hget
      exact congrArg Fin.val hfin

theorem zeroInst_length (model : Model) :
    (zeroInst model).length = model.length :=
  List.length_replicate ..

theorem bindRow_perm {model : Model} {hdrs : List String}
    {rows rows2 : List Row}
    (hnames0 : ∀ f ∈ model, f.name ≠ "")
    (hnames : (model.map (·.name)).Nodup)
    (hhdrs : (hdrs.map foldStr).Nodup)
    (σ : Equiv.Perm (Fin hdrs.length)) {r : Row} {o : Inst}
    (hrlen : r.length = hdrs.length)
    (hb : bindCells model (mapIndexToField model (hdrs :: rows)) r 0
      (zeroInst model) = some o) :
    bindCells model (mapIndexToField model (permuteRow σ hdrs :: rows2))
      (permuteRow σ r) 0 (zeroInst model) = some o := by
  have hm2 : ∀ (k : ℕ) (hk : k < hdrs.length),
      mapIndexToField model (permuteRow σ hdrs :: rows2) k
        = mapIndexToField model (hdrs :: rows) ((σ ⟨k, hk⟩).val) :=
    fun k hk => mapIndexToField_perm model hdrs rows rows2 σ hk
  have hzlen : (zeroInst model).length = model.length := zeroInst_length model
  have hsucc1 := (bindCells_isSome_iff r 0 (zeroInst model)).1
    (by rw [hb]; rfl)
  have hsucc2 : ∀ t, t < (permuteRow σ r).length →
      Option.isSome (fieldIdx model (Option.getD
        (mapIndexToField model (permuteRow σ hdrs :: rows2) (0 + t)) ""))
        = true := by
    intro t ht
    rw [permuteRow_length] at ht
    rw [Nat.zero_add, hm2 t ht]
    have h3 := hsucc1 ((σ ⟨t, ht⟩).val)
      (by rw [hrlen]; exact (σ ⟨t, ht⟩).isLt)
    rw [Nat.zero_add] at h3
    exact h3
  obtain ⟨o2, ho2⟩ : ∃ o2,
      bindCells model (mapIndexToField model (permuteRow σ hdrs :: rows2))
        (permuteRow σ r) 0 (zeroInst model) = some o2 := by
    have hi := (bindCells_isSome_iff (permuteRow σ r) 0
      (zeroInst model)).2 hsucc2
    cases hbc : bindCells model
        (mapIndexToField model (permuteRow σ hdrs :: rows2))
        (permuteRow σ r) 0 (zeroInst model) with
    | none =>
      rw [hbc] at hi
      simp at hi
    | some o2 => exact ⟨o2, rfl⟩
  suffices hoo : o2 = o by rw [ho2, hoo]
  have hlo : o.length = model.length := by
    rw [bindCells_length hb, hzlen]
  have hlo2 : o2.length = model.length := by
    rw [bindCells_length ho2, hzlen]
  apply List.ext_getElem?
  intro iF
  by_cases hiF : iF < model.length
  · by_cases hT : ∃ t, t < hdrs.length ∧
        fieldIdx model
          ((mapIndexToField model (hdrs :: rows) t).getD "") = some iF
    · obtain ⟨t, htn, hft⟩ := hT
      have huniq1 : ∀ t3, t3 < hdrs.length →
          fieldIdx model
            ((mapIndexToField model (hdrs :: rows) t3).getD "") = some iF →
          t3 = t :=
        fun t3 h3 hc => map_target_unique hnames0 hnames hhdrs h3 htn hc hft
      have htr : t < r.length := by
        rw [hrlen]
        exact htn
      have hov : o[iF]? = r[t]? := by
        apply bindCells_get_of_target r 0 (zeroInst model) o iF t hb
          hzlen htr
        · rw [Nat.zero_add]
          exact hft
        · intro t3 ht3 hne
          rw [Nat.zero_add]
          intro hc
          exact hne (huniq1 t3 (by rw [← hrlen]; exact ht3) hc)
      have ht2n : (σ.symm ⟨t, htn⟩).val < hdrs.length :=
        (σ.symm ⟨t, htn⟩).isLt
      have hfin2 : σ ⟨(σ.symm ⟨t, htn⟩).val, ht2n⟩ = ⟨t, htn⟩ := by
        have he : (⟨(σ.symm ⟨t, htn⟩).val, ht2n⟩ : Fin hdrs.length)
            = σ.symm ⟨t, htn⟩ := Fin.ext rfl
        rw [he, Equiv.apply_symm_apply]
      have hm2t2 : mapIndexToField model (permuteRow σ hdrs :: rows2)
          ((σ.symm ⟨t, htn⟩).val)
          = mapIndexToField model (hdrs :: rows) t := by
        rw [hm2 _ ht2n, hfin2]
      have ho2v : o2[iF]? = (permuteRow σ r)[(σ.symm ⟨t, htn⟩).val]? := by
        apply bindCells_get_of_target (permuteRow σ r) 0 (zeroInst model)
          o2 iF _ ho2 hzlen
        · rw [permuteRow_length]
          exact ht2n
        · rw [Nat.zero_add, hm2t2]
          exact hft
        · intro t3 ht3 hne
          rw [Nat.zero_add]
          intro hc
          rw [permuteRow_length] at ht3
          rw [hm2 t3 ht3] at hc
          have heq := huniq1 ((σ ⟨t3, ht3⟩).val) (σ ⟨t3, ht3⟩).isLt hc
          apply hne
          have hfin3 : σ ⟨t3, ht3⟩ = ⟨t, htn⟩ := Fin.ext heq
          have he2 : (⟨t3, ht3⟩ : Fin hdrs.length) = σ.symm ⟨t, htn⟩ := by
            rw [← hfin3, Equiv.symm_apply_apply]
          exact congrArg Fin.val he2
      rw [hov, ho2v, permuteRow_getElem? σ r ht2n, hfin2]
      rw [List.getD_eq_getElem r "" htr, List.getElem?_eq_getElem htr]
    · push_neg at hT
      have hov : o[iF]? = (zeroInst model)[iF]? := by
        apply bindCells_get_of_not_target r 0 (zeroInst model) o iF hb
        intro t ht
        rw [Nat.zero_add]
        exact hT t (by rw [← hrlen]; exact ht)
      have ho2v : o2[iF]? = (zeroInst model)[iF]? := by
        apply bindCells_get_of_not_target (permuteRow σ r) 0
          (zeroInst model) o2 iF ho2
        intro t ht
        rw [permuteRow_length] at ht
        rw [Nat.zero_add, hm2 t ht]
        exact hT ((σ ⟨t, ht⟩).val) (σ ⟨t, ht⟩).isLt
      rw [hov, ho2v]
  · rw [List.getElem?_eq_none (by omega), List.getElem?_eq_none (by omega)]

/-! ### Claim theorems: error-state behaviour -/

/-- C1: for the two-field record type tagged "name" and "lastname", with
stored rows `["name","lastname"], ["Lucas","Montenegro"],
["Vinicius","Vieira"]` and validation not skipped, `Marshal` returns
exactly the instances `{Name:"Lucas", LastName:"Montenegro"}` and
`{Name:"Vinicius", LastName:"Vieira"}`, in that order, with no error. -/
theorem claim1_marshal_scenarioA :
    Marshal [⟨"Name", "name"⟩, ⟨"LastName", "lastname"⟩]
      ⟨[["name", "lastname"], ["Lucas", "Montenegro"],
        ["Vinicius", "Vieira"]], none⟩ false
      = .ok [["Lucas", "Montenegro"], ["Vinicius", "Vieira"]] := by
  decide

/-- C5: on a freshly created helper (no read ever performed), each of the
four accessors `Validate`, `Records`, `Error`, and `Marshal` — for any
`SkipValidation` setting, since integrity checks are never skipped —
fails with the `UninitializedRecords` error. -/
theorem claim5_accessors_uninitialized (model : Model) (b : Bool) :
    Validate model new = (false, some .uninitializedRecords) ∧
    Records model new = (none, some .uninitializedRecords) ∧
    Error model new = some .uninitializedRecords ∧
    Marshal model new b = .err .uninitializedRecords :=
  ⟨rfl, rfl, rfl, rfl⟩

/-- C6: whenever the helper state's stored error is non-`none`, every
accessor (`Validate`, `Records`, `Error`, `Marshal`) returns exactly that
stored error, before and instead of `UninitializedRecords` or any
schema/header check (the state's records and the model are arbitrary
here, and `Marshal` may or may not skip validation).  The accessors are
pure functions of the state, so every subsequent call on the same state
returns the same error until a new `ReadAll` produces a different
state. -/
theorem claim6_sticky_error (model : Model) (s : HelperState) (e : ReadErr)
    (h : s.err = some e) :
    Validate model s = (false, some (.readErr e)) ∧
    Records model s = (none, some (.readErr e)) ∧
    Error model s = some (.readErr e) ∧
    ∀ b, Marshal model s b = .err (.readErr e) := by
  have hv : ∀ b, validate model s b = some (.readErr e) := by
    intro b
    unfold validate validateIntegrity
    rw [h]
  refine ⟨?_, ?_, ?_, ?_⟩ <;>
    simp [Validate, Records, Error, Marshal, hv]

theorem claim6_sticky_error_witness :
    Validate [⟨"Name", "name"⟩]
        ⟨[["x"]], some ⟨"wrong number of fields"⟩⟩
      = (false, some (.readErr ⟨"wrong number of fields"⟩)) ∧
    Records [⟨"Name", "name"⟩]
        ⟨[["x"]], some ⟨"wrong number of fields"⟩⟩
      = (none, some (.readErr ⟨"wrong number of fields"⟩)) ∧
    Error [⟨"Name", "name"⟩]
        ⟨[["x"]], some ⟨"wrong number of fields"⟩⟩
      = some (.readErr ⟨"wrong number of fields"⟩) ∧
    ∀ b, Marshal [⟨"Name", "name"⟩]
        ⟨[["x"]], some ⟨"wrong number of fields"⟩⟩ b
      = .err (.readErr ⟨"wrong number of fields"⟩) :=
  claim6_sticky_error [⟨"Name", "name"⟩]
    ⟨[["x"]], some ⟨"wrong number of fields"⟩⟩
    ⟨"wrong number of fields"⟩ rfl

/-- C8: the read operation is copy-on-write.  `ReadAll` has a value
receiver in Go, so it is embedded as a pure function: it returns a new
handle carrying exactly the freshly read records and error, independent
of the receiver's previous state, and — being a pure function — it
cannot mutate the original handle, which still observes its pre-read
records and error. -/
theorem claim8_readAll_copy_on_write (s1 s2 : HelperState)
    (r : List Row × Option ReadErr) :
    ReadAll s1 r = ReadAll s2 r ∧
    (ReadAll s1 r).records = r.1 ∧
    (ReadAll s1 r).err = r.2 :=
  ⟨rfl, rfl, rfl⟩

/-- C7: when schema checks run (validation not skipped) and integrity has
passed, the three schema errors are decided in a fixed order: any
declared field with an empty tag yields `MissingRequiredTag` regardless
of the other fields; otherwise a duplicated tag value yields
`DuplicatedTag`; otherwise a header cell count different from the
declared field count yields `InvalidHeaderSize`; otherwise validation
succeeds. -/
theorem claim7_schema_error_order (model : Model) (s : HelperState)
    (hs : s.err = none) (hr : s.records ≠ []) :
    ((∃ f ∈ model, f.tag = "") →
      validate model s false = some .missingRequiredTag) ∧
    ((∀ f ∈ model, f.tag ≠ "") → ¬ (model.map (·.tag)).Nodup →
      validate model s false = some .duplicatedTag) ∧
    ((∀ f ∈ model, f.tag ≠ "") → (model.map (·.tag)).Nodup →
      (s.records.headD []).length ≠ model.length →
      validate model s false = some .invalidHeaderSize) ∧
    ((∀ f ∈ model, f.tag ≠ "") → (model.map (·.tag)).Nodup →
      (s.records.headD []).length = model.length →
      validate model s false = none) :=
  ⟨fun hmiss => validate_full_missing hs hr hmiss,
   fun hne hdup => validate_full_dup hs hr hne hdup,
   fun hne hnd hlen => validate_full_size hs hr hne hnd hlen,
   fun hne hnd hlen => validate_full_pass hs hr hne hnd hlen⟩

theorem claim7_schema_error_order_witness :
    validate [⟨"Name", "name"⟩] ⟨[["name"]], none⟩ false = none :=
  (claim7_schema_error_order [⟨"Name", "name"⟩] ⟨[["name"]], none⟩ rfl
    (by decide)).2.2.2 (by decide) (by decide) rfl

/-- C10: full (non-skipped) validation never inspects the header row's
cell contents, only its length: replacing the header by any other row of
the same length leaves the result of `validate` unchanged; a model whose
tags are all non-empty and pairwise distinct passes `Validate` on any
error-free record set whose header cell count equals the field count,
even when no header cell matches any tag; and the declared
`InvalidHeaderValues` error is never returned by any operation. -/
theorem claim10_header_values_never_inspected :
    (∀ (model : Model) (hdrs hdrs2 : List String) (rows : List Row)
      (b : Bool), hdrs.length = hdrs2.length →
      validate model ⟨hdrs :: rows, none⟩ b
        = validate model ⟨hdrs2 :: rows, none⟩ b) ∧
    (∀ (model : Model) (s : HelperState),
      s.err = none → s.records ≠ [] →
      (∀ f ∈ model, f.tag ≠ "") → (model.map (·.tag)).Nodup →
      (s.records.headD []).length = model.length →
      Validate model s = (true, none)) ∧
    (∀ (model : Model) (s : HelperState) (b : Bool),
      Marshal model s b ≠ .err .invalidHeaderValues ∧
      (Validate model s).2 ≠ some .invalidHeaderValues ∧
      (Records model s).2 ≠ some .invalidHeaderValues ∧
      Error model s ≠ some .invalidHeaderValues) := by
  refine ⟨?_, ?_, ?_⟩
  · intro model hdrs hdrs2 rows b hlen
    have hs : (⟨hdrs :: rows, none⟩ : HelperState).err = none := rfl
    have hr : (⟨hdrs :: rows, none⟩ : HelperState).records ≠ [] := by simp
    have hs2 : (⟨hdrs2 :: rows, none⟩ : HelperState).err = none := rfl
    have hr2 : (⟨hdrs2 :: rows, none⟩ : HelperState).records ≠ [] := by simp
    cases b with
    | false =>
      rw [validate_full_eq hs hr, validate_full_eq hs2 hr2]
      cases validateModelTags model with
      | some e => rfl
      | none => simp [hlen]
    | true =>
      unfold validate
      rw [validateIntegrity_none hs hr, validateIntegrity_none hs2 hr2]
      rfl
  · intro model s hs hr hne hnd hlen
    unfold Validate
    rw [validate_full_pass hs hr hne hnd hlen]
  · intro model s b
    have hv := validate_ne_ihv model s b
    have hvf := validate_ne_ihv model s false
    refine ⟨?_, ?_, ?_, ?_⟩
    · cases hval : validate model s b with
      | some e =>
        simp only [Marshal, hval]
        intro hcontra
        exact hv (by rw [hval, Outcome.err.inj hcontra])
      | none =>
        simp only [Marshal, hval]
        cases assign model s.records (mapIndexToField model s.records) <;>
          simp
    · cases hval : validate model s false with
      | some e =>
        simp only [Validate, hval]
        intro hcontra
        exact hvf (by rw [hval, Option.some.inj hcontra])
      | none => simp [Validate, hval]
    · cases hval : validate model s false with
      | some e =>
        simp only [Records, hval]
        intro hcontra
        exact hvf (by rw [hval, Option.some.inj hcontra])
      | none =>
        rcases hserr : s.err with _ | e2
        · simp [Records, hval, hserr]
        · exfalso
          unfold validate validateIntegrity at hval
          rw [hserr] at hval
          simp at hval
    · cases hval : validate model s false with
      | some e =>
        simp only [Error, hval]
        intro hcontra
        exact hvf (by rw [hval, hcontra])
      | none =>
        rcases hserr : s.err with _ | e2
        · simp [Error, hval, hserr]
        · exfalso
          unfold validate validateIntegrity at hval
          rw [hserr] at hval
          simp at hval

/-- C9 counterexample: field `F1` (tag "a") case-insensitively matches
header cell 0 of header `["a"]`, yet the resolver does not record
`0 ↦ "F1"`: field `F2` (tag "A") also matches that cell and, being later
in declaration order, overwrites the entry, so the map records `"F2"`.
This refutes "for every field whose tag equals some header cell up to
letter case, the resolver records that column index → field name". -/
theorem claim9_counterexample :
    matchesAt ["a"] ⟨"F1", "a"⟩ 0 = true ∧
    (⟨"F1", "a"⟩ : Field) ∈ ([⟨"F1", "a"⟩, ⟨"F2", "A"⟩] : Model) ∧
    mapIndexToField [⟨"F1", "a"⟩, ⟨"F2", "A"⟩] [["a"]] 0 ≠ some "F1" ∧
    mapIndexToField [⟨"F1", "a"⟩, ⟨"F2", "A"⟩] [["a"]] 0 = some "F2" :=
  ⟨by decide, by decide, by decide, by decide⟩

/-- C9 amended: header resolution matches a header cell to a field's tag
by case-insensitive comparison, and records the column index ↦ the name
of the *last* matching field in declaration order.  Hence (1) when the
declared tags are pairwise case-insensitively distinct, every field whose
tag matches some header cell is recorded at that cell's index, and
(2) a header differing from another one only in letter case yields
exactly the same column-to-field map, so it binds exactly as the
exact-case header does. -/
theorem claim9_case_insensitive_resolution (model : Model)
    (hdrs hdrs2 : List String) (rows rows2 : List Row) :
    ((model.map (fun f => foldStr f.tag)).Nodup →
      ∀ f ∈ model, ∀ k, matchesAt hdrs f k = true →
        mapIndexToField model (hdrs :: rows) k = some f.name) ∧
    (hdrs.map foldStr = hdrs2.map foldStr →
      ∀ k, mapIndexToField model (hdrs :: rows) k
        = mapIndexToField model (hdrs2 :: rows2) k) := by
  constructor
  · intro htags f hf k hm
    exact mapIndexToField_eq_some_of htags hf hm
  · intro hfold k
    rw [mapIndexToField_apply, mapIndexToField_apply]
    have hlen : hdrs.length = hdrs2.length := by
      have := congrArg List.length hfold
      simpa using this
    have hpred : (fun f => matchesAt hdrs f k)
        = (fun f => matchesAt hdrs2 f k) := by
      funext f
      unfold matchesAt
      by_cases hk : k < hdrs.length
      · have hk2 : k < hdrs2.length := by omega
        have hfoldk : foldStr hdrs[k] = foldStr hdrs2[k] := by
          have h1 : (hdrs.map foldStr)[k]? = (hdrs2.map foldStr)[k]? := by
            rw [hfold]
          rw [List.getElem?_eq_getElem (by simpa using hk),
            List.getElem?_eq_getElem (by simpa using hk2)] at h1
          have h2 := Option.some.inj h1
          rw [List.getElem_map, List.getElem_map] at h2
          exact h2
        simp [hk, hk2, eqFold, hfoldk]
      · have hk2 : ¬ k < hdrs2.length := by omega
        simp [hk, hk2]
    rw [hpred]

theorem claim9_case_insensitive_resolution_witness :
    mapIndexToField personModel [["NAME", "LASTNAME"]] 0 = some "Name" ∧
    mapIndexToField personModel [["NAME", "LASTNAME"]] 0
      = mapIndexToField personModel [["name", "lastname"], ["x", "y"]] 0 :=
  ⟨(claim9_case_insensitive_resolution personModel ["NAME", "LASTNAME"]
      ["name", "lastname"] [] [["x", "y"]]).1 (by decide)
      ⟨"Name", "name"⟩ (by decide) 0 (by decide),
    (claim9_case_insensitive_resolution personModel ["NAME", "LASTNAME"]
      ["name", "lastname"] [] [["x", "y"]]).2 (by decide) 0⟩

/-- C4: whenever `Marshal` succeeds, the returned sequence has exactly
`rowCount − 1` elements (the header row excluded), and the element at
position `i` is precisely the binding of data row `i` (row `i + 1` of the
record set), so row order is preserved with one instance per data row. -/
theorem claim4_row_count (model : Model) (s : HelperState) (cfg : Bool)
    (out : List Inst) (h : Marshal model s cfg = .ok out) :
    out.length = s.records.length - 1 ∧
    ∀ i, i < out.length →
      bindCells model (mapIndexToField model s.records)
        ((s.records.drop 1).getD i []) 0 (zeroInst model)
        = some (out.getD i []) := by
  obtain ⟨hv, ha⟩ := marshal_ok_inv h
  obtain ⟨hl, hall⟩ := (assignLoop_eq_some_iff _ _).1 ha
  constructor
  · rw [hl, List.length_drop]
  · intro i hi
    refine hall i ?_
    rw [← hl]
    exact hi

theorem claim4_row_count_witness :
    ([["Lucas", "Montenegro"], ["Vinicius", "Vieira"]] : List Inst).length
      = scenarioA.records.length - 1 ∧
    ∀ i, i < ([["Lucas", "Montenegro"],
        ["Vinicius", "Vieira"]] : List Inst).length →
      bindCells personModel (mapIndexToField personModel scenarioA.records)
        ((scenarioA.records.drop 1).getD i []) 0 (zeroInst personModel)
        = some (([["Lucas", "Montenegro"],
            ["Vinicius", "Vieira"]] : List Inst).getD i []) :=
  claim4_row_count personModel scenarioA false
    [["Lucas", "Montenegro"], ["Vinicius", "Vieira"]] (by decide)

theorem claim10_header_values_never_inspected_witness :
    validate [⟨"Name", "name"⟩] ⟨[["zzz"]] , none⟩ false
      = validate [⟨"Name", "name"⟩] ⟨[["qqq"]] , none⟩ false ∧
    Validate [⟨"Name", "name"⟩] ⟨[["zzz"]] , none⟩ = (true, none) ∧
    Marshal [⟨"Name", "name"⟩] ⟨[["zzz"]] , none⟩ false
      ≠ .err .invalidHeaderValues :=
  ⟨claim10_header_values_never_inspected.1 [⟨"Name", "name"⟩]
      ["zzz"] ["qqq"] [] false rfl,
    claim10_header_values_never_inspected.2.1 [⟨"Name", "name"⟩]
      ⟨[["zzz"]] , none⟩ rfl (by decide) (by decide) (by decide) rfl,
    (claim10_header_values_never_inspected.2.2 [⟨"Name", "name"⟩]
      ⟨[["zzz"]] , none⟩ false).1⟩

/-- C2 counterexample: with the README's two-field record type,
`SkipValidation: true`, and the stored rows
`["name","lastname","extra"], ["a","b","c"]` (header one cell wider than
the field count), the data cell "c" sits at column index 2, which has no
entry in the column-to-field map.  `assign` then looks up field name ""
(the map's zero value), `reflect.FieldByName` returns the zero `Value`,
and `SetString` panics — `Marshal` does not "proceed through binding and
return instances"; the cell is not ignored. -/
theorem claim2_counterexample :
    Marshal personModel
      ⟨[["name", "lastname", "extra"], ["a", "b", "c"]], none⟩ true
      = .panic := by
  decide

/-- C2 amended: during row binding a data-row cell whose column index has
an entry in the map writes the mapped field, but a cell at an unmapped
index causes a runtime panic (reflect `SetString` on the zero `Value`)
rather than being ignored; declared fields to which no cell is bound keep
their zero value.  With `SkipValidation: true` (integrity still checked),
if every cell of every data row sits at a mapped column, `Marshal`
proceeds and returns one instance per data row, with every field that no
cell targets holding the zero value `""`; if some data-row cell sits at
an unmapped column, `Marshal` panics.  (Field names are non-empty, as Go
guarantees for struct fields.) -/
theorem claim2_binding_behaviour (model : Model) (hdrs : List String)
    (rows : List Row) (hname0 : ∀ f ∈ model, f.name ≠ "") :
    ((∃ r ∈ rows, ∃ t, t < r.length ∧
        mapIndexToField model (hdrs :: rows) t = none) →
      Marshal model ⟨hdrs :: rows, none⟩ true = .panic) ∧
    ((∀ r ∈ rows, ∀ t, t < r.length →
        Option.isSome (fieldIdx model (Option.getD
          (mapIndexToField model (hdrs :: rows) t) "")) = true) →
      ∃ out, Marshal model ⟨hdrs :: rows, none⟩ true = .ok out ∧
        out.length = rows.length ∧
        ∀ i, i < rows.length → ∀ iF, iF < model.length →
          (∀ t, t < (rows.getD i []).length →
            fieldIdx model (Option.getD
              (mapIndexToField model (hdrs :: rows) t) "") ≠ some iF) →
          (out.getD i [])[iF]? = some "") := by
  have hv : validate model ⟨hdrs :: rows, none⟩ true = none :=
    validate_skip rfl (by simp)
  constructor
  · rintro ⟨r, hr, t, ht, hmt⟩
    have hbnone : bindCells model (mapIndexToField model (hdrs :: rows))
        r 0 (zeroInst model) = none := by
      cases hb : bindCells model (mapIndexToField model (hdrs :: rows))
          r 0 (zeroInst model) with
      | none => rfl
      | some o =>
        have hiff := (bindCells_isSome_iff r 0 (zeroInst model)).1
          (by rw [hb]; rfl) t ht
        rw [Nat.zero_add, hmt, Option.getD_none,
          fieldIdx_empty_of_names hname0] at hiff
        simp at hiff
    have hnone := assignLoop_none_of_mem hr hbnone
    unfold Marshal
    rw [hv]
    show (match assignLoop model (mapIndexToField model (hdrs :: rows))
        rows with
      | some out => Outcome.ok out
      | none => Outcome.panic) = Outcome.panic
    rw [hnone]
  · intro hall
    have hsome : ∀ r ∈ rows,
        (bindCells model (mapIndexToField model (hdrs :: rows)) r 0
          (zeroInst model)).isSome = true := by
      intro r hr
      apply (bindCells_isSome_iff r 0 (zeroInst model)).2
      intro t ht
      rw [Nat.zero_add]
      exact hall r hr t ht
    obtain ⟨out, hout⟩ := assignLoop_isSome_of hsome
    obtain ⟨hl, hallb⟩ := (assignLoop_eq_some_iff _ _).1 hout
    refine ⟨out, marshal_ok_intro hv hout, hl, ?_⟩
    intro i hi iF hiF hnot
    have hb : bindCells model (mapIndexToField model (hdrs :: rows))
        (rows.getD i []) 0 (zeroInst model) = some (out.getD i []) :=
      hallb i hi
    have hval := bindCells_get_of_not_target (rows.getD i []) 0
      (zeroInst model) (out.getD i []) iF hb (by
        intro t ht
        rw [Nat.zero_add]
        exact hnot t ht)
    rw [hval]
    unfold zeroInst
    rw [List.getElem?_replicate, if_pos hiF]

theorem claim2_binding_behaviour_witness :
    ∃ out, Marshal personModel ⟨[["name"], ["a"]], none⟩ true
      = .ok out ∧
    out.length = ([["a"]] : List Row).length ∧
    ∀ i, i < ([["a"]] : List Row).length →
      ∀ iF, iF < personModel.length →
      (∀ t, t < (([["a"]] : List Row).getD i []).length →
        fieldIdx personModel (Option.getD
          (mapIndexToField personModel [["name"], ["a"]] t) "")
          ≠ some iF) →
      (out.getD i [])[iF]? = some "" :=
  (claim2_binding_behaviour personModel ["name"] [["a"]]
    (by decide)).2 (by decide)

/-- C3 counterexample: the schema `[F1: tag "a", F2: tag "A"]` is valid
in the claim's sense (non-empty, pairwise-distinct tags), and `Marshal`
succeeds on the stored table `[["a","A"], ["x","y"]]`, returning the
single instance `{F1:"", F2:"y"}` (both header cells case-insensitively
match both tags, so `F2`, last in declaration order, owns both columns
and the later cell wins).  Swapping the two columns of the header and of
the data row — a permutation of the table — yields `{F1:"", F2:"x"}`:
the bound field values differ, refuting column-order independence as
stated. -/
theorem claim3_counterexample :
    (([⟨"F1", "a"⟩, ⟨"F2", "A"⟩] : Model) ≠ [] ∧
      (∀ f ∈ ([⟨"F1", "a"⟩, ⟨"F2", "A"⟩] : Model), f.tag ≠ "") ∧
      (([⟨"F1", "a"⟩, ⟨"F2", "A"⟩] : Model).map (·.tag)).Nodup) ∧
    permuteRow (Equiv.swap (0 : Fin 2) 1) ["a", "A"] = ["A", "a"] ∧
    permuteRow (Equiv.swap (0 : Fin 2) 1) ["x", "y"] = ["y", "x"] ∧
    Marshal [⟨"F1", "a"⟩, ⟨"F2", "A"⟩] ⟨[["a", "A"], ["x", "y"]], none⟩
      false = .ok [["", "y"]] ∧
    Marshal [⟨"F1", "a"⟩, ⟨"F2", "A"⟩] ⟨[["A", "a"], ["y", "x"]], none⟩
      false = .ok [["", "x"]] ∧
    ([["", "y"]] : List Inst) ≠ [["", "x"]] :=
  ⟨⟨by decide, by decide, by decide⟩, by decide, by decide, by decide,
    by decide, by decide⟩

/-- C3 amended: for every valid schema (non-empty, pairwise-distinct
tags; field names distinct and non-empty, as Go guarantees) and every
stored uniform-width table *whose header cells are pairwise distinct up
to letter case*, if `Marshal` succeeds then applying one permutation to
the header row's cells and the same permutation to each data row's cells
yields a `Marshal` run that succeeds with the identical instances,
element by element.  (Without the case-insensitive distinctness of the
header cells the property fails, see the counterexample.) -/
theorem claim3_permutation_invariance (model : Model) (hdrs : List String)
    (rows : List Row) (out : List Inst) (b : Bool)
    (_hmodel : model ≠ [])
    (_htags0 : ∀ f ∈ model, f.tag ≠ "")
    (_htagsd : (model.map (·.tag)).Nodup)
    (hnames0 : ∀ f ∈ model, f.name ≠ "")
    (hnames : (model.map (·.name)).Nodup)
    (hhdrs : (hdrs.map foldStr).Nodup)
    (hrows : ∀ r ∈ rows, r.length = hdrs.length)
    (σ : Equiv.Perm (Fin hdrs.length))
    (hok : Marshal model ⟨hdrs :: rows, none⟩ b = .ok out) :
    Marshal model
      ⟨permuteRow σ hdrs :: rows.map (permuteRow σ), none⟩ b
      = .ok out := by
  obtain ⟨hv, ha⟩ := marshal_ok_inv hok
  have ha2 : assignLoop model (mapIndexToField model (hdrs :: rows)) rows
      = some out := ha
  obtain ⟨hl, hallb⟩ := (assignLoop_eq_some_iff _ _).1 ha2
  have hv2 : validate model
      ⟨permuteRow σ hdrs :: rows.map (permuteRow σ), none⟩ b = none := by
    cases b with
    | true => exact validate_skip rfl (by simp)
    | false =>
      have hinv := validate_full_none_inv rfl (by simp) hv
      apply validate_full_of_tags_none rfl (by simp) hinv.1
      show ((permuteRow σ hdrs :: rows.map (permuteRow σ)).headD
        []).length = model.length
      rw [List.headD_cons, permuteRow_length]
      have hh := hinv.2
      rw [List.headD_cons] at hh
      exact hh
  apply marshal_ok_intro hv2
  show assignLoop model
    (mapIndexToField model (permuteRow σ hdrs :: rows.map (permuteRow σ)))
    (rows.map (permuteRow σ)) = some out
  apply (assignLoop_eq_some_iff _ _).2
  constructor
  · rw [hl, List.length_map]
  · intro i hi
    rw [List.length_map] at hi
    have hgetd : (rows.map (permuteRow σ)).getD i []
        = permuteRow σ (rows.getD i []) := by
      rw [List.getD_eq_getElem?_getD, List.getElem?_map,
        List.getElem?_eq_getElem hi]
      rw [List.getD_eq_getElem rows [] hi]
      rfl
    rw [hgetd]
    have hrlen : (rows.getD i []).length = hdrs.length := by
      apply hrows
      rw [List.getD_eq_getElem rows [] hi]
      exact List.getElem_mem hi
    exact bindRow_perm hnames0 hnames hhdrs σ hrlen (hallb i hi)

theorem claim3_permutation_invariance_witness :
    Marshal personModel
      ⟨permuteRow (Equiv.swap
          (⟨0, by decide⟩ : Fin (["name", "lastname"] : List String).length)
          ⟨1, by decide⟩) ["name", "lastname"]
        :: [["Lucas", "Montenegro"]].map (permuteRow (Equiv.swap
          (⟨0, by decide⟩ : Fin (["name", "lastname"] : List String).length)
          ⟨1, by decide⟩)), none⟩ false
      = .ok [["Lucas", "Montenegro"]] :=
  claim3_permutation_invariance personModel ["name", "lastname"]
    [["Lucas", "Montenegro"]] [["Lucas", "Montenegro"]] false
    (by decide) (by decide) (by decide) (by decide) (by decide)
    (by decide) (by decide)
    (Equiv.swap ⟨0, by decide⟩ ⟨1, by decide⟩) (by decide)

end CsvHelper
